import Mathlib

/-! Shallow embedding of the terminal application (src/main.rs): the
path-resolution functions `find_command` / `find_commands`, the command runner
`App::run_command` together with the `AppAction::RunCommand` arm of `App::run`,
and the key-event editing loop `App::input`.  The OS filesystem, the split
`PATH` variable and process spawning are modelled as explicit oracles. -/

namespace Terminal

/-- Abstract filesystem oracle standing for the OS filesystem: `isDir p` models
`p.metadata()` succeeding with a directory, and `pathExists p` models
`p.exists()` (the source method is named `exists`, which is a Lean keyword). -/
structure FileSystem where
  isDir : String → Bool
  pathExists : String → Bool

/-- Embedding of Rust `Path::join` on Unix: an absolute right operand replaces
the left one; otherwise a separator is inserted unless the left side is empty or
already ends in one.  In particular joining the empty name onto `"/a"` yields
`"/a/"`, exactly as `PathBuf::push` does. -/
def pathJoin (dir name : String) : String :=
  if name.data.head? = some '/' then name
  else if dir.data = [] ∨ dir.data.getLast? = some '/' then dir ++ name
  else dir ++ "/" ++ name

/-- Embedding of `find_command` (src/main.rs lines 280-294): walk the
search-path directories in order; for each one whose metadata is a directory,
return the joined candidate as soon as it exists. -/
def find_command (fs : FileSystem) (searchPath : List String) (to_check : String) :
    Option String :=
  match searchPath with
  | [] => none
  | p :: rest =>
    if fs.isDir p then
      let candidate := pathJoin p to_check
      if fs.pathExists candidate then some candidate
      else find_command fs rest to_check
    else find_command fs rest to_check

/-- One directory pass of `find_commands`: for every requested name whose
candidate exists in `dir`, overwrite that slot of the accumulator with the
candidate (the source performs an unconditional `mem::swap`). -/
def updateFound (fs : FileSystem) (dir : String) (to_check : List String)
    (found : List (Option String)) : List (Option String) :=
  (to_check.zip found).map (fun nc =>
    let candidate := pathJoin dir nc.1
    if fs.pathExists candidate then some candidate else nc.2)

/-- Embedding of `find_commands` (src/main.rs lines 296-314): a vector
initialised to all `None`, then every existing search-path directory, in order,
overwrites the slot of every name whose candidate exists there. -/
def find_commands (fs : FileSystem) (searchPath : List String) (to_check : List String) :
    List (Option String) :=
  searchPath.foldl
    (fun found p => if fs.isDir p then updateFound fs p to_check found else found)
    (to_check.map (fun _ => none))

/-- Ascii whitespace exactly as Rust `char::is_ascii_whitespace`: space,
horizontal tab, line feed, form feed, carriage return. -/
def isAsciiWhitespace (c : Char) : Bool :=
  c = ' ' || c = '\t' || c = '\n' || c = '\x0c' || c = '\r'

/-- Tail worker for whitespace splitting; `acc` holds the current in-progress
token in reverse. -/
def splitWsAux : List Char → List Char → List (List Char)
  | [], acc => if acc.isEmpty then [] else [acc.reverse]
  | c :: cs, acc =>
    if isAsciiWhitespace c then
      if acc.isEmpty then splitWsAux cs []
      else acc.reverse :: splitWsAux cs []
    else splitWsAux cs (c :: acc)

/-- Embedding of `str::split_ascii_whitespace().collect::<Vec<_>>()`: the
maximal non-empty runs of non-whitespace characters, in order. -/
def splitAsciiWhitespace (s : String) : List String :=
  (splitWsAux s.data []).map (fun cs => String.mk cs)

/-- Embedding of `Vec::join(" ")`. -/
def joinSpace : List String → String
  | [] => ""
  | [w] => w
  | w :: v :: ws => w ++ " " ++ joinSpace (v :: ws)

/-- Errors `App::run_command` can return (it boxes them as `dyn Error`): the
literal "Running empty command" string, an io error from `Command::output`, or a
`FromUtf8Error` from decoding the captured stdout. -/
inductive RunError where
  | emptyCommand
  | spawnFailed
  | invalidUtf8
  deriving DecidableEq

/-- Result of attempting to spawn a resolved program: either the OS fails to
create the process (`Command::output()` returns `Err`), or it runs and its
captured stdout bytes either decode as UTF-8 (`some` string) or do not. -/
inductive SpawnResult where
  | failed
  | output (stdoutUtf8 : Option String)
  deriving DecidableEq

/-- The distinguishable outcomes of `App::run_command`: a Rust panic (indexing
`words[0]` on an empty vector), an `Err` return, or an `Ok` stdout string. -/
inductive RunOutcome where
  | panicked
  | error (message : RunError)
  | ok (stdout : String)
  deriving DecidableEq

/-- How `Command::output().map(|out| String::from_utf8(out.stdout))??` maps a
spawn result onto the outcome of `run_command`. -/
def interpretOutput : SpawnResult → RunOutcome
  | SpawnResult.failed => RunOutcome.error RunError.spawnFailed
  | SpawnResult.output none => RunOutcome.error RunError.invalidUtf8
  | SpawnResult.output (some s) => RunOutcome.ok s

/-- The ambient OS world: the filesystem, the already-split `PATH` variable
(`env::split_paths(env::var("PATH"))`), and a spawn oracle giving each
(resolved program, argument vector) pair its outcome. -/
structure World where
  fs : FileSystem
  searchPath : List String
  spawn : String → List String → SpawnResult

/-- Embedding of `App::run_command` (src/main.rs lines 90-108).  An empty line
is rejected up front; otherwise the line is split on ascii whitespace, `words[0]`
is taken as the program name (a panic when the line is whitespace-only, since
the vector is then empty), the name is resolved, and on resolution the process
is spawned with the full word list `&words[0..]` as its argument vector.  An
unresolved name leaves `result` as the empty string and returns `Ok`. -/
def run_command (w : World) (command_line : String) : RunOutcome :=
  if command_line = "" then RunOutcome.error RunError.emptyCommand
  else
    match splitAsciiWhitespace command_line with
    | [] => RunOutcome.panicked
    | command :: rest =>
      let words := command :: rest
      match find_command w.fs w.searchPath command with
      | none => RunOutcome.ok ""
      | some path => interpretOutput (w.spawn path words)

/-- The two text fields of `App`: `buffer` is the Transcript and `command_line`
the PendingLine. -/
structure AppState where
  buffer : String
  command_line : String
  deriving DecidableEq

/-- Embedding of the `AppAction::RunCommand` arm of `App::run` (src/main.rs
lines 130-135): only an `Ok` result appends to the transcript and clears the
pending line; an `Err` is silently dropped by the `if let Ok`; a panic aborts
the session (modelled as `none`). -/
def handleRunCommand (w : World) (s : AppState) : Option AppState :=
  match run_command w s.command_line with
  | RunOutcome.panicked => none
  | RunOutcome.error _ => some s
  | RunOutcome.ok out => some { buffer := s.buffer ++ out, command_line := "" }

/-- The actions `App::input` pushes for the main loop. -/
inductive AppAction where
  | None
  | Exit
  | RunCommand
  deriving DecidableEq

/-- The modifier state of a key event, quotiented to the three cases the source
match distinguishes: exactly `Mod::NOMOD`, exactly `Mod::LSHIFTMOD`, and any
other modifier combination. -/
inductive KeyMod where
  | nomod
  | lshift
  | otherMod
  deriving DecidableEq

/-- The SDL keycodes the source names, plus `Unknown` standing for every other
keycode (those only get logged). -/
inductive Keycode where
  | Escape
  | Return
  | Backspace
  | A | B | C | D | E | F | G | H | I | J | K | L | M
  | N | O | P | Q | R | S | T | U | V | W | X | Y | Z
  | Space
  | Slash
  | Period
  | Unknown
  deriving DecidableEq

/-- The character-producing table of the `Mod::NOMOD` arm (src/main.rs lines
206-234): the lowercase letters, space, slash and period. -/
def keyCharNomod : Keycode → Option Char
  | Keycode.A => some 'a'
  | Keycode.B => some 'b'
  | Keycode.C => some 'c'
  | Keycode.D => some 'd'
  | Keycode.E => some 'e'
  | Keycode.F => some 'f'
  | Keycode.G => some 'g'
  | Keycode.H => some 'h'
  | Keycode.I => some 'i'
  | Keycode.J => some 'j'
  | Keycode.K => some 'k'
  | Keycode.L => some 'l'
  | Keycode.M => some 'm'
  | Keycode.N => some 'n'
  | Keycode.O => some 'o'
  | Keycode.P => some 'p'
  | Keycode.Q => some 'q'
  | Keycode.R => some 'r'
  | Keycode.S => some 's'
  | Keycode.T => some 't'
  | Keycode.U => some 'u'
  | Keycode.V => some 'v'
  | Keycode.W => some 'w'
  | Keycode.X => some 'x'
  | Keycode.Y => some 'y'
  | Keycode.Z => some 'z'
  | Keycode.Space => some ' '
  | Keycode.Slash => some '/'
  | Keycode.Period => some '.'
  | _ => none

/-- The character-producing table of the any-modifier fallback arm (src/main.rs
lines 238-245): only space, slash and period. -/
def keyCharShift : Keycode → Option Char
  | Keycode.Space => some ' '
  | Keycode.Slash => some '/'
  | Keycode.Period => some '.'
  | _ => none

/-- Embedding of Rust `String::pop`: drop the last character; a no-op on the
empty string. -/
def stringPop (s : String) : String := String.mk s.data.dropLast

/-- Embedding of the left-shift-backspace arm (src/main.rs lines 189-197):
split the line on ascii whitespace, `Vec::pop` the last word, rejoin the rest
with single spaces. -/
def deleteWord (s : String) : String := joinSpace (splitAsciiWhitespace s).dropLast

/-- One SDL event, as the `App::input` match distinguishes them.  `Other`
covers every event that only gets logged. -/
inductive Event where
  | TextInput
  | TextEditing
  | Quit
  | KeyDown (keycode : Option Keycode) (keymod : KeyMod)
  | Other
  deriving DecidableEq

/-- Embedding of the per-event dispatch of `App::input` (src/main.rs lines
178-249), with the arms tried in source order: text events are ignored, escape
(any modifier) and quit push `Exit`, return (any modifier) pushes `RunCommand`,
backspace with exactly left shift deletes a word, then under `Mod::NOMOD`
backspace pops a character and the key table inserts one, and under any other
modifier only space, slash and period insert.  Everything else only logs. -/
def processEvent (cl : String) : Event → String × Option AppAction
  | Event.TextInput => (cl, none)
  | Event.TextEditing => (cl, none)
  | Event.Quit => (cl, some AppAction.Exit)
  | Event.Other => (cl, none)
  | Event.KeyDown none _ => (cl, none)
  | Event.KeyDown (some key) m =>
    match key, m with
    | Keycode.Escape, _ => (cl, some AppAction.Exit)
    | Keycode.Return, _ => (cl, some AppAction.RunCommand)
    | Keycode.Backspace, KeyMod.lshift => (deleteWord cl, none)
    | Keycode.Backspace, KeyMod.nomod => (stringPop cl, none)
    | k, KeyMod.nomod =>
      match keyCharNomod k with
      | some c => (cl.push c, none)
      | none => (cl, none)
    | k, _ =>
      match keyCharShift k with
      | some c => (cl.push c, none)
      | none => (cl, none)

/-- The event loop body of `App::input`: fold the pending events through
`processEvent`, collecting the pushed actions in order. -/
def inputAux (cl : String) (acc : List AppAction) : List Event → String × List AppAction
  | [] => (cl, acc)
  | e :: es =>
    match processEvent cl e with
    | (cl2, some a) => inputAux cl2 (acc ++ [a]) es
    | (cl2, none) => inputAux cl2 acc es

/-- Embedding of `App::input` (src/main.rs lines 175-255): process all pending
events; when no action was pushed a single `AppAction::None` is returned. -/
def input (cl : String) (events : List Event) : String × List AppAction :=
  match inputAux cl [] events with
  | (cl2, []) => (cl2, [AppAction.None])
  | (cl2, acts) => (cl2, acts)

/-- The characters the key tables can insert: space, slash, period and the
lowercase letters (codepoints 97 to 122). -/
def AllowedChar (c : Char) : Prop :=
  (c = ' ' ∨ c = '/' ∨ c = '.') ∨ (97 ≤ c.toNat ∧ c.toNat ≤ 122)

instance (c : Char) : Decidable (AllowedChar c) := by
  unfold AllowedChar
  infer_instance

/-- A search-path directory matches a name when its metadata is a directory and
the joined candidate path exists. -/
def dirMatches (fs : FileSystem) (d to_check : String) : Prop :=
  fs.isDir d = true ∧ fs.pathExists (pathJoin d to_check) = true

instance (fs : FileSystem) (d n : String) : Decidable (dirMatches fs d n) := by
  unfold dirMatches
  infer_instance

/-- A finite filesystem: the first list gives the directories, the second the
paths that exist. -/
def mkFS (dirs files : List String) : FileSystem :=
  { isDir := fun p => dirs.contains p
    pathExists := fun p => files.contains p }

/-- Filesystem with directories `/a` and `/b`, each containing `tool`. -/
def toolFS : FileSystem := mkFS ["/a", "/b"] ["/a/tool", "/b/tool"]

/-- Filesystem where `/a` is a directory and, as on any POSIX system, the
trailing-slash path `/a/` exists (a stat of `dir/` succeeds when `dir` is a
directory). -/
def slashFS : FileSystem := mkFS ["/a"] ["/a/"]

/-- World with an empty search path; every spawn would report empty output. -/
def emptyWorld : World :=
  { fs := mkFS [] []
    searchPath := []
    spawn := fun _ _ => SpawnResult.output (some "") }

/-- World where `/a` is on the search path, `/a/x` exists, and every spawn
fails at the OS level. -/
def spawnFailWorld : World :=
  { fs := mkFS ["/a"] ["/a/x"]
    searchPath := ["/a"]
    spawn := fun _ _ => SpawnResult.failed }

/-- World where `/a` is on the search path, `/a/echo` exists, and every spawned
process prints `hi` on stdout. -/
def echoWorld : World :=
  { fs := mkFS ["/a"] ["/a/echo"]
    searchPath := ["/a"]
    spawn := fun _ _ => SpawnResult.output (some "hi") }


theorem find_command_eq_none_iff (fs : FileSystem) (sp : List String) (name : String) :
    find_command fs sp name = none ↔ ∀ d ∈ sp, ¬ dirMatches fs d name := by
  induction sp with
  | nil => simp [find_command]
  | cons q rest ih =>
    by_cases h1 : fs.isDir q
    · by_cases h2 : fs.pathExists (pathJoin q name)
      · simp only [find_command, h1, h2, if_true]
        constructor
        · intro h
          exact absurd h (by simp)
        · intro h
          exact absurd ⟨h1, h2⟩ (h q (List.mem_cons_self q rest))
      · simp only [find_command, h1, if_true, ih, List.mem_cons]
        rw [if_neg (by simpa using h2)]
        rw [ih]
        constructor
        · intro h d hd
          rcases hd with hd | hd
          · subst hd
            intro hm
            exact h2 hm.2
          · exact h d hd
        · intro h d hd
          exact h d (Or.inr hd)
    · simp only [find_command, List.mem_cons]
      rw [if_neg (by simpa using h1), ih]
      constructor
      · intro h d hd
        rcases hd with hd | hd
        · subst hd
          intro hm
          exact h1 hm.1
        · exact h d hd
      · intro h d hd
        exact h d (Or.inr hd)

theorem find_command_eq_some_iff (fs : FileSystem) (sp : List String) (name p : String) :
    find_command fs sp name = some p ↔
      ∃ pre d post, sp = pre ++ d :: post ∧ dirMatches fs d name ∧
        p = pathJoin d name ∧ ∀ e ∈ pre, ¬ dirMatches fs e name := by
  induction sp with
  | nil =>
    simp only [find_command]
    constructor
    · intro h
      exact absurd h (by simp)
    · rintro ⟨pre, d, post, hsp, -⟩
      exact absurd hsp (by simp)
  | cons q rest ih =>
    by_cases hm : dirMatches fs q name
    · have hfc : find_command fs (q :: rest) name = some (pathJoin q name) := by
        simp only [find_command, hm.1, hm.2, if_true]
      rw [hfc]
      constructor
      · intro h
        exact ⟨[], q, rest, rfl, hm, (Option.some.inj h).symm, by simp⟩
      · rintro ⟨pre, d, post, hsp, hd, hp, hpre⟩
        cases pre with
        | nil =>
          simp only [List.nil_append, List.cons.injEq] at hsp
          rw [hp, hsp.1]
        | cons e pre2 =>
          simp only [List.cons_append, List.cons.injEq] at hsp
          exact absurd (hsp.1 ▸ hm) (hpre e (List.mem_cons_self e pre2))
    · have hrec : find_command fs (q :: rest) name = find_command fs rest name := by
        by_cases h1 : fs.isDir q
        · have h2 : fs.pathExists (pathJoin q name) = false := by
            by_contra h
            exact hm ⟨h1, by simpa using h⟩
          simp only [find_command, h1, if_true]
          rw [if_neg (by simp [h2])]
        · simp only [find_command]
          rw [if_neg (by simpa using h1)]
      rw [hrec, ih]
      constructor
      · rintro ⟨pre, d, post, hsp, hd, hp, hpre⟩
        refine ⟨q :: pre, d, post, by simp [hsp], hd, hp, ?_⟩
        intro e he
        rcases List.mem_cons.mp he with h | h
        · subst h
          exact hm
        · exact hpre e h
      · rintro ⟨pre, d, post, hsp, hd, hp, hpre⟩
        cases pre with
        | nil =>
          simp only [List.nil_append, List.cons.injEq] at hsp
          exact absurd (hsp.1 ▸ hd) hm
        | cons e pre2 =>
          simp only [List.cons_append, List.cons.injEq] at hsp
          exact ⟨pre2, d, post, hsp.2, hd, hp, fun x hx =>
            hpre x (List.mem_cons_of_mem e hx)⟩


theorem string_append_empty (s : String) : s ++ "" = s := by
  cases s with
  | mk data => show String.mk (data ++ []) = String.mk data; rw [List.append_nil]

theorem splitAsciiWhitespace_empty : splitAsciiWhitespace "" = [] := rfl

theorem splitAsciiWhitespace_ne_nil_of_cons {line cmd : String} {rest : List String}
    (h : splitAsciiWhitespace line = cmd :: rest) : line ≠ "" := by
  intro he
  rw [he, splitAsciiWhitespace_empty] at h
  exact List.noConfusion h

theorem run_command_of_split_cons (w : World) (line cmd : String) (rest : List String)
    (hsplit : splitAsciiWhitespace line = cmd :: rest) :
    run_command w line =
      match find_command w.fs w.searchPath cmd with
      | none => RunOutcome.ok ""
      | some path => interpretOutput (w.spawn path (cmd :: rest)) := by
  unfold run_command
  rw [if_neg (splitAsciiWhitespace_ne_nil_of_cons hsplit), hsplit]

theorem run_unresolved_returns_ok_empty (w : World) (line cmd : String) (rest : List String)
    (hsplit : splitAsciiWhitespace line = cmd :: rest)
    (hfind : find_command w.fs w.searchPath cmd = none) :
    run_command w line = RunOutcome.ok "" := by
  rw [run_command_of_split_cons w line cmd rest hsplit, hfind]


theorem splitWsAux_chars (P : Char → Prop) :
    ∀ (cs acc : List Char), (∀ c ∈ cs, P c) → (∀ c ∈ acc, P c) →
      ∀ t ∈ splitWsAux cs acc, ∀ c ∈ t, P c := by
  intro cs
  induction cs with
  | nil =>
    intro acc hcs hacc t ht c hc
    simp only [splitWsAux] at ht
    split at ht
    · exact absurd ht (List.not_mem_nil t)
    · rw [List.mem_singleton] at ht
      subst ht
      exact hacc c (List.mem_reverse.mp hc)
  | cons d ds ih =>
    intro acc hcs hacc t ht c hc
    have hds : ∀ x ∈ ds, P x := fun x hx => hcs x (List.mem_cons_of_mem d hx)
    simp only [splitWsAux] at ht
    split at ht
    · split at ht
      · exact ih [] hds (by simp) t ht c hc
      · rcases List.mem_cons.mp ht with h | h
        · subst h
          exact hacc c (List.mem_reverse.mp hc)
        · exact ih [] hds (by simp) t h c hc
    · refine ih (d :: acc) hds ?_ t ht c hc
      intro x hx
      rcases List.mem_cons.mp hx with h | h
      · subst h
        exact hcs x (List.mem_cons_self x ds)
      · exact hacc x h

theorem splitAsciiWhitespace_chars (P : Char → Prop) (s : String)
    (hs : ∀ c ∈ s.data, P c) :
    ∀ t ∈ splitAsciiWhitespace s, ∀ c ∈ t.data, P c := by
  intro t ht c hc
  rcases List.mem_map.mp ht with ⟨cs, hcs, rfl⟩
  exact splitWsAux_chars P s.data [] hs (by simp) cs hcs c hc

theorem joinSpace_chars (P : Char → Prop) (hsp : P ' ') :
    ∀ ts : List String, (∀ t ∈ ts, ∀ c ∈ t.data, P c) →
      ∀ c ∈ (joinSpace ts).data, P c := by
  intro ts
  induction ts with
  | nil =>
    intro _ c hc
    exact absurd hc (List.not_mem_nil c)
  | cons w ws ih =>
    intro h c hc
    cases ws with
    | nil => exact h w (List.mem_cons_self w []) c hc
    | cons v vs =>
      simp only [joinSpace, String.data_append, List.mem_append] at hc
      rcases hc with (hc | hc) | hc
      · exact h w (List.mem_cons_self w _) c hc
      · rw [List.mem_singleton] at hc
        subst hc
        exact hsp
      · exact ih (fun t ht => h t (List.mem_cons_of_mem w ht)) c hc

theorem deleteWord_chars (P : Char → Prop) (hsp : P ' ') (s : String)
    (hs : ∀ c ∈ s.data, P c) : ∀ c ∈ (deleteWord s).data, P c := by
  intro c hc
  refine joinSpace_chars P hsp (splitAsciiWhitespace s).dropLast ?_ c hc
  intro t ht
  exact splitAsciiWhitespace_chars P s hs t (List.dropLast_subset _ ht)

theorem stringPop_chars (P : Char → Prop) (s : String)
    (hs : ∀ c ∈ s.data, P c) : ∀ c ∈ (stringPop s).data, P c := by
  intro c hc
  exact hs c (List.dropLast_subset _ hc)

theorem processEvent_shape (cl : String) (e : Event) :
    (processEvent cl e).fst = cl ∨ (processEvent cl e).fst = deleteWord cl ∨
      (processEvent cl e).fst = stringPop cl ∨
      ∃ c, AllowedChar c ∧ (processEvent cl e).fst = cl.push c := by
  cases e with
  | KeyDown k m =>
    cases k with
    | none => exact Or.inl rfl
    | some key =>
      cases key <;> cases m <;>
        first
          | exact Or.inl rfl
          | exact Or.inr (Or.inl rfl)
          | exact Or.inr (Or.inr (Or.inl rfl))
          | exact Or.inr (Or.inr (Or.inr ⟨_, by decide, rfl⟩))
  | TextInput => exact Or.inl rfl
  | TextEditing => exact Or.inl rfl
  | Quit => exact Or.inl rfl
  | Other => exact Or.inl rfl

theorem processEvent_preserves_allowed (cl : String) (e : Event)
    (h : ∀ c ∈ cl.data, AllowedChar c) :
    ∀ c ∈ ((processEvent cl e).fst).data, AllowedChar c := by
  rcases processEvent_shape cl e with hs | hs | hs | ⟨c0, hc0, hs⟩
  · rw [hs]; exact h
  · rw [hs]; exact deleteWord_chars AllowedChar (by decide) cl h
  · rw [hs]; exact stringPop_chars AllowedChar cl h
  · rw [hs]
    intro c hc
    rw [show (cl.push c0).data = cl.data ++ [c0] from rfl, List.mem_append] at hc
    rcases hc with hc | hc
    · exact h c hc
    · rw [List.mem_singleton] at hc
      subst hc
      exact hc0

theorem inputAux_preserves_allowed :
    ∀ (events : List Event) (cl : String) (acc : List AppAction),
      (∀ c ∈ cl.data, AllowedChar c) →
      ∀ c ∈ ((inputAux cl acc events).fst).data, AllowedChar c := by
  intro events
  induction events with
  | nil => intro cl acc h; exact h
  | cons e es ih =>
    intro cl acc h
    have hstep := processEvent_preserves_allowed cl e h
    simp only [inputAux]
    rcases hpe : processEvent cl e with ⟨cl2, oa⟩
    rw [hpe] at hstep
    cases oa with
    | none => exact ih cl2 acc hstep
    | some a => exact ih cl2 (acc ++ [a]) hstep

theorem input_fst_eq (cl : String) (events : List Event) :
    (input cl events).fst = (inputAux cl [] events).fst := by
  unfold input
  rcases h : inputAux cl [] events with ⟨cl2, acts⟩
  cases acts <;> rfl


/-- C1: the batch resolver disagrees with the element-wise single resolver.  With
both `/a/tool` and `/b/tool` present, `find_commands` answers `/b/tool` because
every later matching directory unconditionally overwrites the slot, while
`find_command` answers `/a/tool` (first match wins). -/
theorem find_commands_overwrites_earlier_match :
    find_commands toolFS ["/a", "/b"] ["tool"] = [some "/b/tool"] ∧
    ["tool"].map (find_command toolFS ["/a", "/b"]) = [some "/a/tool"] ∧
    find_commands toolFS ["/a", "/b"] ["tool"] ≠
      ["tool"].map (find_command toolFS ["/a", "/b"]) := by
  refine ⟨by decide, by decide, by decide⟩

/-- C2 counterexample: with an empty search path the name `nosuch` does not
resolve, yet handling the run clears the pending line to the empty string
instead of leaving the state untouched. -/
theorem run_unresolved_clears_pending_cex :
    find_command emptyWorld.fs emptyWorld.searchPath "nosuch" = none ∧
    handleRunCommand emptyWorld ⟨"T", "nosuch"⟩ = some ⟨"T", ""⟩ ∧
    handleRunCommand emptyWorld ⟨"T", "nosuch"⟩ ≠ some ⟨"T", "nosuch"⟩ := by
  refine ⟨by decide, by decide, by decide⟩

/-- C2 amended: when the program name of a non-blank pending line fails to
resolve, `run_command` returns `Ok` with empty stdout, so the caller leaves the
transcript unchanged (it appends the empty string) but still clears the pending
line, exactly as on success. -/
theorem run_unresolved_clears_pending (w : World) (s : AppState) (cmd : String)
    (rest : List String) (hsplit : splitAsciiWhitespace s.command_line = cmd :: rest)
    (hfind : find_command w.fs w.searchPath cmd = none) :
    handleRunCommand w s = some { buffer := s.buffer, command_line := "" } := by
  unfold handleRunCommand
  rw [run_unresolved_returns_ok_empty w s.command_line cmd rest hsplit hfind]
  show some (AppState.mk (s.buffer ++ "") "") = some (AppState.mk s.buffer "")
  rw [string_append_empty]

/-- C2 witness: the amended statement instantiated at the concrete unresolved
run. -/
theorem run_unresolved_clears_pending_witness :
    handleRunCommand emptyWorld ⟨"T", "nosuch"⟩ = some ⟨"T", ""⟩ :=
  run_unresolved_clears_pending emptyWorld ⟨"T", "nosuch"⟩ "nosuch" [] (by decide) (by decide)

/-- C3: a whitespace-only line passes the emptiness guard, so `words[0]` indexes
an empty vector and the program panics; only the genuinely empty line yields the
empty-command error. -/
theorem run_command_whitespace_line_aborts :
    run_command emptyWorld " " = RunOutcome.panicked ∧
    run_command emptyWorld "" = RunOutcome.error RunError.emptyCommand := by
  refine ⟨by decide, by decide⟩

/-- C4 counterexample: a run whose spawn fails at the OS level returns the
spawn-failure error, and the caller drops it: the transcript gains no error
line and the state is returned unchanged. -/
theorem spawn_failure_not_surfaced_cex :
    run_command spawnFailWorld "x" = RunOutcome.error RunError.spawnFailed ∧
    handleRunCommand spawnFailWorld ⟨"T", "x"⟩ = some ⟨"T", "x"⟩ := by
  refine ⟨by decide, by decide⟩

/-- C4 amended: every error return of `run_command`, the spawn failure included,
is silently discarded by the `if let Ok` in `App::run`: the session survives but
the transcript and the pending line are left exactly as they were, so no error
line is ever appended. -/
theorem run_error_dropped_silently (w : World) (s : AppState) (e : RunError)
    (h : run_command w s.command_line = RunOutcome.error e) :
    handleRunCommand w s = some s := by
  unfold handleRunCommand
  rw [h]

/-- C4 witness: the amended statement at the concrete failing spawn. -/
theorem run_error_dropped_silently_witness :
    handleRunCommand spawnFailWorld ⟨"T", "x"⟩ = some ⟨"T", "x"⟩ :=
  run_error_dropped_silently spawnFailWorld ⟨"T", "x"⟩ RunError.spawnFailed (by decide)

/-- C5: for a non-blank line whose token list is `cmd :: rest` and whose program
name resolves to `path`, the spawned process receives the full token list —
with the program name as element 0 — as its argument vector, and the run's
outcome is exactly the interpretation of that spawn. -/
theorem run_command_passes_full_token_list (w : World) (line cmd : String)
    (rest : List String) (path : String)
    (hsplit : splitAsciiWhitespace line = cmd :: rest)
    (hfind : find_command w.fs w.searchPath cmd = some path) :
    run_command w line = interpretOutput (w.spawn path (cmd :: rest)) := by
  rw [run_command_of_split_cons w line cmd rest hsplit, hfind]

/-- C5 witness: in the world where `/a/echo` exists and prints `hi`, running
`echo hi` spawns `/a/echo` with argument vector `["echo", "hi"]`. -/
theorem run_command_passes_full_token_list_witness :
    run_command echoWorld "echo hi" =
      interpretOutput (echoWorld.spawn "/a/echo" ["echo", "hi"]) :=
  run_command_passes_full_token_list echoWorld "echo hi" "echo" ["hi"] "/a/echo"
    (by decide) (by decide)

/-- C6: `find_command` returns `some p` exactly when the search path decomposes
as `pre ++ d :: post` with `d` the first directory that is a directory and whose
joined candidate exists, and `p` that candidate; in particular with search path
`["/a", "/b"]` and both `/a/tool` and `/b/tool` present, `tool` resolves to
`/a/tool`. -/
theorem find_command_first_match_wins :
    (∀ (fs : FileSystem) (sp : List String) (name p : String),
      find_command fs sp name = some p ↔
        ∃ pre d post, sp = pre ++ d :: post ∧ dirMatches fs d name ∧
          p = pathJoin d name ∧ ∀ e ∈ pre, ¬ dirMatches fs e name) ∧
    find_command toolFS ["/a", "/b"] "tool" = some "/a/tool" :=
  ⟨find_command_eq_some_iff, by decide⟩

/-- C7 counterexample: for the empty name there is no special case; the joined
candidate is the directory path itself with a trailing separator, which exists
whenever the directory does, so resolution returns it instead of `none`. -/
theorem find_command_empty_name_resolves_cex :
    find_command slashFS ["/a"] "" = some "/a/" := by decide

/-- C7 amended: `find_command` returns `none` exactly when no search-path entry
is an existing directory whose joined candidate exists; the empty name is not
special-cased, and on a filesystem where `/a` is a directory (so `/a/` exists)
it resolves to the directory itself. -/
theorem find_command_none_characterisation :
    (∀ (fs : FileSystem) (sp : List String) (name : String),
      find_command fs sp name = none ↔ ∀ d ∈ sp, ¬ dirMatches fs d name) ∧
    find_command slashFS ["/a"] "" = some "/a/" :=
  ⟨find_command_eq_none_iff, by decide⟩

/-- C8: the left-shift-backspace arm splits the pending line on whitespace runs,
drops the last token and rejoins the remainder with single spaces; with no
tokens the result is empty.  Concretely, `build the thing` becomes `build the`,
`build` becomes the empty string, a whitespace-only buffer becomes empty, and
runs of whitespace collapse to single spaces. -/
theorem delete_word_drops_last_token :
    (∀ cl, (processEvent cl (Event.KeyDown (some Keycode.Backspace) KeyMod.lshift)).fst
        = joinSpace (splitAsciiWhitespace cl).dropLast) ∧
    (processEvent "build the thing" (Event.KeyDown (some Keycode.Backspace) KeyMod.lshift)).fst
        = "build the" ∧
    (processEvent "build" (Event.KeyDown (some Keycode.Backspace) KeyMod.lshift)).fst = "" ∧
    (processEvent "  " (Event.KeyDown (some Keycode.Backspace) KeyMod.lshift)).fst = "" ∧
    (processEvent "a  b  c" (Event.KeyDown (some Keycode.Backspace) KeyMod.lshift)).fst
        = "a b" := by
  refine ⟨fun cl => rfl, by decide, by decide, by decide, by decide⟩

/-- C9: starting from the empty pending line, any event sequence leaves only
characters the key tables can insert — space, slash, period and the lowercase
letters — so the buffer never contains a control character (every character has
codepoint at least 32 and distinct from 127). -/
theorem pending_line_printable_invariant :
    ∀ (events : List Event) (c : Char),
      c ∈ ((input "" events).fst).data →
      AllowedChar c ∧ 32 ≤ c.toNat ∧ c.toNat ≠ 127 := by
  intro events c hc
  rw [input_fst_eq] at hc
  have hall : AllowedChar c :=
    inputAux_preserves_allowed events "" [] (by decide) c hc
  refine ⟨hall, ?_⟩
  rcases hall with (h | h | h) | ⟨h1, h2⟩
  · subst h; decide
  · subst h; decide
  · subst h; decide
  · omega

/-- C9 witness: typing the letter `a` from the empty buffer leaves the single
allowed character `a`. -/
theorem pending_line_printable_invariant_witness :
    AllowedChar 'a' ∧ 32 ≤ 'a'.toNat ∧ 'a'.toNat ≠ 127 :=
  pending_line_printable_invariant [Event.KeyDown (some Keycode.A) KeyMod.nomod] 'a'
    (by decide)

/-- C10: unmodified backspace removes exactly the last character — appending any
character and then backspacing restores the original buffer — and on the empty
buffer it is a no-op that leaves the buffer empty. -/
theorem delete_char_pops_last :
    (∀ (s : String) (c : Char),
      (processEvent (s.push c) (Event.KeyDown (some Keycode.Backspace) KeyMod.nomod)).fst = s) ∧
    (processEvent "" (Event.KeyDown (some Keycode.Backspace) KeyMod.nomod)).fst = "" := by
  constructor
  · intro s c
    show stringPop (s.push c) = s
    unfold stringPop
    show String.mk (s.data ++ [c]).dropLast = s
    rw [List.dropLast_concat]
  · rfl

end Terminal
